import Mathlib

/-!
# Verification of the abel SDK batched bulk-fetch engine

Shallow embedding of the abel SDK client core (`util.ts` and the
`AbelSDK` facade in `index.ts`) and proofs of the specification claims
about it.

Modelling conventions:
* A JavaScript `Map` is embedded as an ordered association list
  (`JsMap`), with `jsSet` implementing `Map.set` semantics: an existing
  key keeps its position and gets the new value, a new key is appended,
  so key iteration order is insertion order.
* Raw log records (`Uint8Array`) are byte lists (`List Nat`); only their
  length and decoded payload matter to the code under study.
* Simulation log strings are represented by their base64-decoded text
  (the code decodes each log before inspecting it; the decoding itself
  belongs to the transport collaborator).
* Asynchronous remote calls are oracles `List Nat → Except SimError _`;
  `p-map` bounded-concurrent execution is modelled by an explicit
  completion order (an arbitrary list of task indices), with results
  written into slots indexed by the originating task, which is the
  documented contract of `p-map` (results array matches input order).
-/

set_option linter.unusedVariables false

namespace Abel

/-! ## JavaScript `Map` model -/

/-- An ordered association list embedding a JavaScript `Map`:
entries in insertion order, keys unique in well-formed maps. -/
abbrev JsMap (K V : Type) := List (K × V)

variable {K V : Type} [DecidableEq K]

/-- The `Map.prototype.set`: if the key exists its entry is updated in
place (keeping its position), otherwise the entry is appended. -/
def jsSet (m : JsMap K V) (k : K) (v : V) : JsMap K V :=
  if m.any (fun p => p.1 = k) then
    m.map (fun p => if p.1 = k then (k, v) else p)
  else
    m ++ [(k, v)]

/-- The `Map.prototype.get` (as an `Option`). -/
def jsLookup (m : JsMap K V) (k : K) : Option V :=
  (m.find? (fun p => p.1 = k)).map Prod.snd

/-- The key iteration order of a `Map`. -/
def jsKeys (m : JsMap K V) : List K := m.map Prod.fst

/-- The `new Map(entries)`: iterate the entries and `set` each one. -/
def jsOfList (l : List (K × V)) : JsMap K V :=
  l.foldl (fun acc p => jsSet acc p.1 p.2) []

/-- Folding a list of entries into an accumulator with `set`
(the body of both `new Map(entries)` and `mergeMapsArr`). -/
def jsSetAll (acc : JsMap K V) (l : List (K × V)) : JsMap K V :=
  l.foldl (fun a p => jsSet a p.1 p.2) acc

/-- The value held by the last map of `maps` that contains key `k`
(the specification's "later chunks override earlier ones"). -/
def lastLookup (maps : List (JsMap K V)) (k : K) : Option V :=
  maps.reverse.findSome? (fun m => jsLookup m k)

/-! ## `util.ts` (`src/unnamed/part_014`): `chunk` and `mergeMapsArr` -/

/-- The chunking loop of `chunk` for chunk size `k + 1`: each round
emits `slice(i, i + k + 1)` and advances past it. The `fuel` argument
(instantiated with the list length, which each round strictly consumes)
only makes the recursion structural; the middle branch is unreachable
for adequate fuel. -/
def chunkGo (k : Nat) : Nat → List α → List (List α)
  | _, [] => []
  | 0, l => [l]
  | fuel + 1, a :: rest => (a :: rest.take k) :: chunkGo k fuel (rest.drop k)

/-- The `for (i = 0; i < len; i += size) push(slice(i, i + size))`, for
chunk size `k + 1` (see `chunkCore_cons` for the loop equation). -/
def chunkCore (k : Nat) (l : List α) : List (List α) := chunkGo k l.length l

/-- The `chunk(array, chunkSize)` from `util.ts`: throws when
`chunkSize <= 0`, otherwise slices the array into consecutive pieces of
length `chunkSize`. -/
def chunk (array : List α) (chunkSize : Int) : Except String (List (List α)) :=
  if chunkSize ≤ 0 then
    .error "Chunk size must be greater than 0"
  else
    .ok (chunkCore (chunkSize.toNat - 1) array)

/-- The `mergeMapsArr(maps)` from `util.ts`: `new Map(maps[0])`, then each
later map's entries are `set` into the accumulator in order. -/
def mergeMapsArr : List (JsMap K V) → JsMap K V
  | [] => []
  | m :: rest =>
    rest.foldl (fun acc mp => mp.foldl (fun a p => jsSet a p.1 p.2) acc) (jsOfList m)

/-! ## Error normalization: the two `wrapErrors` variants -/

/-- The failure shape observed by the `wrapErrors` variants: the
diagnostic message, the `originalMessage` auxiliary field the v1
variant writes, and the optional simulate-response `eval-states` log
groups (each log is represented by its base64-decoded text; the base64
transport encoding is outside the embedding). -/
structure SimError where
  message : String
  originalMessage : Option String := none
  evalStates : Option (List (List String)) := none
deriving DecidableEq, Repr

/-- The `String.prototype.startsWith`, re-implemented over the character
list so that it is kernel-computable. -/
def strStartsWith (s p : String) : Bool := p.data.isPrefixOf s.data

/-- The log scan of `wrapErrors` in `util.ts`
(`src/unnamed/part_014`): walk the eval-states in order; for each state
with a non-empty log list look at its last log; the first such last log
whose decoded text starts with `ERR` is the extracted token (states
whose last log carries no token are skipped, not fatal). -/
def findLogErr (states : List (List String)) : Option String :=
  states.findSome? (fun logs =>
    match logs.getLast? with
    | some lastLog => if strStartsWith lastLog "ERR" then some lastLog else none
    | none => none)

/-- The `wrapErrors` from `util.ts` (`src/unnamed/part_014`): on failure,
scan the simulate eval-state logs for a trailing `ERR` token and throw
a fresh `Error(decoded)` carrying exactly that token (and nothing
else); otherwise rethrow the original failure unchanged. -/
def wrapErrorsUtil {T : Type} : Except SimError T → Except SimError T
  | .ok v => .ok v
  | .error e =>
    match e.evalStates with
    | some states =>
      match findLogErr states with
      | some decoded => .error { message := decoded }
      | none => .error e
    | none => .error e

/-- One attempt of the regex `/"(ERR:[^"]+)"/` at the position just
after an opening quote: the literal `ERR:`, then one or more non-quote
characters, then a closing quote; the capture is the token. -/
def tryErrToken (cs : List Char) : Option String :=
  match cs with
  | 'E' :: 'R' :: 'R' :: ':' :: rest =>
    let content := rest.takeWhile (fun c => c ≠ '"')
    if content ≠ [] ∧ (rest.dropWhile (fun c => c ≠ '"')) ≠ [] then
      some (String.mk ('E' :: 'R' :: 'R' :: ':' :: content))
    else none
  | _ => none

/-- Leftmost match of `/"(ERR:[^"]+)"/` over the message characters: at
each `"` try to read a token; on failure resume scanning right after
that quote. -/
def findErrTokenAux : List Char → Option String
  | [] => none
  | c :: rest =>
    if c = '"' then
      match tryErrToken rest with
      | some tok => some tok
      | none => findErrTokenAux rest
    else findErrTokenAux rest

/-- The `/"(ERR:[^"]+)"/.exec(message)` capture group 1, if any. -/
def findErrToken (msg : String) : Option String := findErrTokenAux msg.data

/-- The `wrapErrors` from `src/unnamed/part_007`: on failure, extract a
quoted `ERR:` token from the diagnostic's message text; if found, keep
the failure object but set its message to exactly the token, preserving
the original text in `originalMessage`; otherwise rethrow unchanged. -/
def wrapErrorsV1 {T : Type} : Except SimError T → Except SimError T
  | .ok v => .ok v
  | .error e =>
    match findErrToken e.message with
    | some tok => .error { e with message := tok, originalMessage := some e.message }
    | none => .error e

/-! ## Log parsing and view assembly (`parseLogsAs` and the bulk
getters, `index.ts` / `src/unnamed/part_021`) -/

/-- A decoded per-asset log record: either a typed record or the
`{ deleted: true }` sentinel produced for a zero-length log. -/
inductive ParsedLog (R : Type) where
  | record (r : R)
  | deleted
deriving DecidableEq, Repr

/-- The `parseLogsAs(logs, tupleParser, abiDecodingMethodName)`: a
zero-length raw log becomes the `deleted` sentinel without being
parsed; a non-empty one is decoded (`dec` composes the registered ABI
return-type decode with the view's tuple parser). -/
def parseLogsAs {R : Type} (dec : List Nat → R) (logs : List (List Nat)) :
    List (ParsedLog R) :=
  logs.map (fun logValue =>
    if logValue.length ≠ 0 then .record (dec logValue) else .deleted)

/-- The value stored in a bulk-getter result map:
`{ id: assetIds[idx], ...descriptorValue }`. -/
structure AssetValue (R : Type) where
  id : Nat
  payload : ParsedLog R
deriving DecidableEq, Repr

/-- The entry list `assetValues.map((descriptorValue, idx) =>
[assetIds[idx], { id: assetIds[idx], ...descriptorValue }])`. -/
def viewEntries {R : Type} (dec : List Nat → R) (assetIds : List Nat)
    (logs : List (List Nat)) : List (Nat × AssetValue R) :=
  (parseLogsAs dec logs).enum.map
    (fun p => (assetIds.getD p.1 0, ⟨assetIds.getD p.1 0, p.2⟩))

/-- The `new Map(entries)` over the getter's entry list. -/
def viewAssemble {R : Type} (dec : List Nat → R) (assetIds : List Nat)
    (logs : List (List Nat)) : JsMap Nat (AssetValue R) :=
  jsOfList (viewEntries dec assetIds logs)

/-! ## Bounded concurrent execution (`p-map`) and `batchCall` -/

/-- One run of `p-map` under an explicit completion order: `order`
lists task indices in the order their remote calls settle (indices out
of range are skipped; a meaningful run's completions cover every task).
Each settled task writes its result into the slot of its own index —
never the slot of another task — and the first settled rejection
rejects the whole run. This models p-map's documented contract: the
result array follows input order, not completion order. -/
def pMapRun {α β E : Type} (f : α → Except E β) (tasks : List α) :
    List Nat → (Nat → Option β) → Except E (Nat → Option β)
  | [], slots => .ok slots
  | j :: order, slots =>
    match tasks[j]? with
    | none => pMapRun f tasks order slots
    | some a =>
      match f a with
      | .error e => .error e
      | .ok b => pMapRun f tasks order (fun i => if i = j then some b else slots i)

/-- The value `p-map` resolves to: the per-task results read back in
input order. -/
def pMapResult {α β E : Type} (f : α → Except E β) (tasks : List α)
    (order : List Nat) : Except E (List β) :=
  (pMapRun f tasks order (fun _ => none)).map
    (fun slots => (List.range tasks.length).filterMap slots)

/-- The `batchCall(method, [assetIDs], methodMax)` from `index.ts`: chunk
the ids, run the per-chunk calls through `p-map`, and merge the
resulting maps. Every call site passes a positive capacity constant,
so the `chunk` guard cannot fire and the chunking is expressed directly
through `chunkCore` (see `chunk_pos_eq_chunkCore`). -/
def batchCall {V E : Type} (method : List Nat → Except E (JsMap Nat V))
    (assetIDs : List Nat) (methodMax : Nat) (order : List Nat) :
    Except E (JsMap Nat V) :=
  (pMapResult method (chunkCore (methodMax - 1) assetIDs) order).map mergeMapsArr

/-- The unbatched body shared by the eight bulk asset-view getters:
wrap the simulated remote call (`simOf` is the transport oracle giving
one chunk's confirmation logs), parse the logs, and build the result
`Map` keyed by the requested ids. -/
def viewSingle {R : Type} (dec : List Nat → R)
    (simOf : List Nat → Except SimError (List (List Nat)))
    (assetIds : List Nat) : Except SimError (JsMap Nat (AssetValue R)) :=
  match wrapErrorsUtil (simOf assetIds) with
  | .error e => .error e
  | .ok logs => .ok (viewAssemble dec assetIds logs)

/-- A bulk asset-view getter: `if (assetIds.length > METHOD_MAX) return
this.batchCall(...)`, else the single unbatched call (each chunk of the
batched path re-enters the getter and, fitting the capacity, takes the
unbatched branch). -/
def viewGetter {R : Type} (dec : List Nat → R)
    (simOf : List Nat → Except SimError (List (List Nat)))
    (methodMax : Nat) (order : List Nat) (assetIds : List Nat) :
    Except SimError (JsMap Nat (AssetValue R)) :=
  if assetIds.length > methodMax then
    batchCall (viewSingle dec simOf) assetIds methodMax order
  else viewSingle dec simOf assetIds

/-! ## The eight per-view capacity ceilings and their dispatch -/

/-- Which remote path a bulk getter takes for a given request. -/
inductive CallPath (α : Type) where
  | unbatched (ids : List α)
  | batched (chunks : List (List α))
deriving DecidableEq, Repr

/-- The batching decision shared by the bulk getters. -/
def bulkDispatch (methodMax : Nat) (assetIds : List Nat) : CallPath Nat :=
  if assetIds.length > methodMax then
    .batched (chunkCore (methodMax - 1) assetIds)
  else .unbatched assetIds

def getAssetsMicro_METHOD_MAX : Nat := 128
def getAssetsMicroLabels_METHOD_MAX : Nat := 64
def getAssetsTiny_METHOD_MAX : Nat := 128
def getAssetsTinyLabels_METHOD_MAX : Nat := 64
def getAssetsText_METHOD_MAX : Nat := 128
def getAssetsTextLabels_METHOD_MAX : Nat := 64
def getAssetsSmall_METHOD_MAX : Nat := 64
def getAssetsFull_METHOD_MAX : Nat := 42

def getAssetsMicroPath (assetIds : List Nat) : CallPath Nat :=
  bulkDispatch getAssetsMicro_METHOD_MAX assetIds
def getAssetsMicroLabelsPath (assetIds : List Nat) : CallPath Nat :=
  bulkDispatch getAssetsMicroLabels_METHOD_MAX assetIds
def getAssetsTinyPath (assetIds : List Nat) : CallPath Nat :=
  bulkDispatch getAssetsTiny_METHOD_MAX assetIds
def getAssetsTinyLabelsPath (assetIds : List Nat) : CallPath Nat :=
  bulkDispatch getAssetsTinyLabels_METHOD_MAX assetIds
def getAssetsTextPath (assetIds : List Nat) : CallPath Nat :=
  bulkDispatch getAssetsText_METHOD_MAX assetIds
def getAssetsTextLabelsPath (assetIds : List Nat) : CallPath Nat :=
  bulkDispatch getAssetsTextLabels_METHOD_MAX assetIds
def getAssetsSmallPath (assetIds : List Nat) : CallPath Nat :=
  bulkDispatch getAssetsSmall_METHOD_MAX assetIds
def getAssetsFullPath (assetIds : List Nat) : CallPath Nat :=
  bulkDispatch getAssetsFull_METHOD_MAX assetIds

/-- The boundary behaviour claimed for one bulk getter with capacity
ceiling `maxN`: a request of exactly `maxN` ids is a single unbatched
call, and one of `maxN + 1` ids is batched into exactly two chunks of
sizes `maxN` and `1`. -/
def BoundaryOK (maxN : Nat) (path : List Nat → CallPath Nat) : Prop :=
  ∀ assetIds : List Nat,
    (assetIds.length = maxN → path assetIds = .unbatched assetIds) ∧
    (assetIds.length = maxN + 1 →
      path assetIds = .batched [assetIds.take maxN, assetIds.drop maxN] ∧
      (assetIds.take maxN).length = maxN ∧ (assetIds.drop maxN).length = 1)

/-! ## Label descriptor lookup -/

/-- The `{ id: labelId, ...labelDescriptorValue }`, with the box value kept
opaque (it is decoded by the generated contract client). -/
structure LabelDescriptor (V : Type) where
  id : String
  value : V
deriving DecidableEq, Repr

/-- The `getLabelDescriptor(labelId)` (`index.ts`): wrap the simulated
`getLabel` call with `wrapErrors`; a caught failure whose (normalized)
message is exactly `ERR:NOEXIST` resolves to `null`, any other failure
is rethrown; success combines the requested id with the box value. -/
def getLabelDescriptor {V : Type} (remote : Except SimError V)
    (labelId : String) : Except SimError (Option (LabelDescriptor V)) :=
  match wrapErrorsUtil remote with
  | .ok labelDescriptorValue =>
      .ok (some { id := labelId, value := labelDescriptorValue })
  | .error e =>
      if e.message = "ERR:NOEXIST" then .ok none else .error e

/-! ## The write-side facade (`AbelSDK` constructor and write ops) -/

/-- An account able to sign transactions. -/
structure TransactionSignerAccount where
  addr : String
deriving DecidableEq, Repr

/-- A typed app client configured with a default sender. -/
structure AppClient where
  defaultSender : String
deriving DecidableEq, Repr

/-- The write-related state of a constructed `AbelSDK`. -/
structure AbelSDK where
  writeClient : Option AppClient
  writeAccount : Option TransactionSignerAccount
deriving DecidableEq, Repr

/-- The `AbelSDK` constructor: `writeClient` and `writeAccount` are
populated exactly when the `writeAccount` option is supplied. -/
def mkAbelSDK (writeAccount : Option TransactionSignerAccount) : AbelSDK :=
  { writeClient := writeAccount.map (fun a => { defaultSender := a.addr }),
    writeAccount := writeAccount }

/-- The `requireWriteClient()`: throws when either write member is
undefined. -/
def requireWriteClient (sdk : AbelSDK) :
    Except SimError (TransactionSignerAccount × AppClient) :=
  match sdk.writeAccount, sdk.writeClient with
  | some acct, some client => .ok (acct, client)
  | _, _ =>
      .error { message := "A transaction operation was issued on a read-only client" }

/-- The `isNullish(str)` from `util.ts` (`str === undefined || str ===
null`, with the nullable runtime value embedded as an `Option`). -/
def isNullish (str : Option String) : Bool := str.isNone

/-- The outcome of a write operation together with the number of
transport submissions it performed. -/
structure OpResult (ρ : Type) where
  result : Except SimError ρ
  transportCalls : Nat
deriving Repr

/-- The `addLabel`: precondition check, then one atomic group (funding
payment + `addLabel` call) submitted and wrapped; `send` is the
transport oracle for that submission. -/
def addLabel {ρ : Type} (sdk : AbelSDK) (send : Except SimError ρ)
    (labelId name url : String) : OpResult ρ :=
  match requireWriteClient sdk with
  | .error e => ⟨.error e, 0⟩
  | .ok _ => ⟨wrapErrorsUtil send, 1⟩

/-- The `changeLabel`: precondition check, nullish argument checks, then
one submission. -/
def changeLabel {ρ : Type} (sdk : AbelSDK) (send : Except SimError ρ)
    (labelId : String) (name url : Option String) : OpResult ρ :=
  match requireWriteClient sdk with
  | .error e => ⟨.error e, 0⟩
  | .ok _ =>
    if isNullish name then ⟨.error { message := "name must be defined" }, 0⟩
    else if isNullish url then ⟨.error { message := "url must be defined" }, 0⟩
    else ⟨wrapErrorsUtil send, 1⟩

/-- The `removeLabel`: precondition check, then one submission. -/
def removeLabel {ρ : Type} (sdk : AbelSDK) (send : Except SimError ρ)
    (labelId : String) : OpResult ρ :=
  match requireWriteClient sdk with
  | .error e => ⟨.error e, 0⟩
  | .ok _ => ⟨wrapErrorsUtil send, 1⟩

/-- The `addOperatorToLabel`: precondition check, then one submission. -/
def addOperatorToLabel {ρ : Type} (sdk : AbelSDK) (send : Except SimError ρ)
    (operator labelId : String) : OpResult ρ :=
  match requireWriteClient sdk with
  | .error e => ⟨.error e, 0⟩
  | .ok _ => ⟨wrapErrorsUtil send, 1⟩

/-- The `removeOperatorFromLabel`: precondition check, then one
submission. -/
def removeOperatorFromLabel {ρ : Type} (sdk : AbelSDK) (send : Except SimError ρ)
    (operator labelId : String) : OpResult ρ :=
  match requireWriteClient sdk with
  | .error e => ⟨.error e, 0⟩
  | .ok _ => ⟨wrapErrorsUtil send, 1⟩

/-- The `addLabelToAsset`: precondition check, then one submission. -/
def addLabelToAsset {ρ : Type} (sdk : AbelSDK) (send : Except SimError ρ)
    (assetId : Nat) (labelId : String) : OpResult ρ :=
  match requireWriteClient sdk with
  | .error e => ⟨.error e, 0⟩
  | .ok _ => ⟨wrapErrorsUtil send, 1⟩

/-- The `removeLabelFromAsset`: precondition check, then one submission. -/
def removeLabelFromAsset {ρ : Type} (sdk : AbelSDK) (send : Except SimError ρ)
    (assetId : Nat) (labelId : String) : OpResult ρ :=
  match requireWriteClient sdk with
  | .error e => ⟨.error e, 0⟩
  | .ok _ => ⟨wrapErrorsUtil send, 1⟩

/-! ## `addLabelToAssets` internal chunking -/

/-- The `const METHOD_MAX = 6 + 8 * 15` in `addLabelToAssets`. -/
def addLabelToAssets_METHOD_MAX : Nat := 6 + 8 * 15

/-- The per-call `assets` arguments of the single atomic group built by
`addLabelToAssets` within the budget: two zero place-holders are
prepended (`chunk([0n, 0n, ...assetIds], 8)`) to make room for the
label and operator box references carried by the first call, and the
first chunk drops them again (`AssetChunks[i].slice(2)`). -/
def addLabelToAssetsCallArgs (assetIds : List Nat) : List (List Nat) :=
  let AssetChunks := chunkCore 7 (0 :: 0 :: assetIds)
  AssetChunks.enum.map (fun p => if p.1 = 0 then p.2.drop 2 else p.2)

/-- The submission plan of `addLabelToAssets`: one atomic group within
the budget; past it, independent (non-atomic) groups over
`METHOD_MAX`-sized chunks run through `p-map`, each chunk re-entering
the method and — fitting the budget — taking the single-group branch. -/
inductive AddLabelToAssetsPlan where
  | group (calls : List (List Nat))
  | batchedGroups (groups : List (List (List Nat)))
deriving DecidableEq, Repr

def addLabelToAssetsPlan (assetIds : List Nat) : AddLabelToAssetsPlan :=
  if assetIds.length > addLabelToAssets_METHOD_MAX then
    .batchedGroups
      ((chunkCore (addLabelToAssets_METHOD_MAX - 1) assetIds).map
        addLabelToAssetsCallArgs)
  else
    .group (addLabelToAssetsCallArgs assetIds)

/-- The `addLabelToAssets` as a write operation: precondition check first,
then the submissions described by `addLabelToAssetsPlan` (one transport
submission for the atomic group, one per chunk otherwise); `send` is
the transport oracle. -/
def addLabelToAssets {ρ : Type} (sdk : AbelSDK) (send : Except SimError ρ)
    (assetIds : List Nat) (labelId : String) : OpResult ρ :=
  match requireWriteClient sdk with
  | .error e => ⟨.error e, 0⟩
  | .ok _ =>
    match addLabelToAssetsPlan assetIds with
    | .group _ => ⟨wrapErrorsUtil send, 1⟩
    | .batchedGroups groups => ⟨wrapErrorsUtil send, groups.length⟩

/-! ### Lemmas about `chunkCore` -/

theorem chunkGo_fuel_irrel (k : Nat) :
    ∀ (f₁ : Nat) (l : List α) (f₂ : Nat), l.length ≤ f₁ → l.length ≤ f₂ →
      chunkGo k f₁ l = chunkGo k f₂ l := by
  intro f₁
  induction f₁ with
  | zero =>
      intro l f₂ h₁ _
      have : l = [] := List.eq_nil_of_length_eq_zero (Nat.le_zero.1 h₁)
      subst this
      cases f₂ <;> rfl
  | succ n ih =>
      intro l f₂ h₁ h₂
      cases l with
      | nil => cases f₂ <;> rfl
      | cons a rest =>
          cases f₂ with
          | zero => simp at h₂
          | succ m =>
              show (a :: rest.take k) :: chunkGo k n (rest.drop k)
                  = (a :: rest.take k) :: chunkGo k m (rest.drop k)
              congr 1
              apply ih
              · simp only [List.length_drop]
                simp only [List.length_cons] at h₁
                omega
              · simp only [List.length_drop]
                simp only [List.length_cons] at h₂
                omega

/-- The loop equation of `chunkCore`: one round emits the head chunk
`slice(0, k + 1)` and continues past it. -/
theorem chunkCore_cons (k : Nat) (a : α) (rest : List α) :
    chunkCore k (a :: rest) = (a :: rest.take k) :: chunkCore k (rest.drop k) := by
  show (a :: rest.take k) :: chunkGo k rest.length (rest.drop k) = _
  congr 1
  apply chunkGo_fuel_irrel
  · simp only [List.length_drop]; omega
  · exact Nat.le_refl _

theorem chunkCore_nil (k : Nat) : chunkCore k ([] : List α) = [] := rfl

theorem chunkCore_flatten (k : Nat) (l : List α) : (chunkCore k l).flatten = l := by
  suffices h : ∀ (fuel : Nat) (l : List α), l.length ≤ fuel →
      (chunkGo k fuel l).flatten = l from h l.length l (Nat.le_refl _)
  intro fuel
  induction fuel with
  | zero =>
      intro l h
      have : l = [] := List.eq_nil_of_length_eq_zero (Nat.le_zero.1 h)
      subst this; rfl
  | succ n ih =>
      intro l h
      cases l with
      | nil => rfl
      | cons a rest =>
          show ((a :: rest.take k) :: chunkGo k n (rest.drop k)).flatten = _
          rw [List.flatten_cons, ih (rest.drop k) (by
            simp only [List.length_drop]
            simp only [List.length_cons] at h
            omega)]
          simp only [List.cons_append, List.take_append_drop]

theorem chunkCore_length_le (k : Nat) (l : List α) :
    ∀ c ∈ chunkCore k l, c.length ≤ k + 1 := by
  suffices h : ∀ (fuel : Nat) (l : List α), l.length ≤ fuel →
      ∀ c ∈ chunkGo k fuel l, c.length ≤ k + 1 from h l.length l (Nat.le_refl _)
  intro fuel
  induction fuel with
  | zero =>
      intro l h
      have : l = [] := List.eq_nil_of_length_eq_zero (Nat.le_zero.1 h)
      subst this; simp [chunkGo]
  | succ n ih =>
      intro l h c hc
      cases l with
      | nil => simp [chunkGo] at hc
      | cons a rest =>
          rcases List.mem_cons.1 hc with h' | h'
          · subst h'
            simp only [List.length_cons]
            have := List.length_take_le k rest
            omega
          · exact ih (rest.drop k) (by
              simp only [List.length_drop]
              simp only [List.length_cons] at h
              omega) c h'

theorem chunkCore_ne_nil_mem (k : Nat) (l : List α) :
    ∀ c ∈ chunkCore k l, c ≠ [] := by
  suffices h : ∀ (fuel : Nat) (l : List α), l.length ≤ fuel →
      ∀ c ∈ chunkGo k fuel l, c ≠ [] from h l.length l (Nat.le_refl _)
  intro fuel
  induction fuel with
  | zero =>
      intro l h
      have : l = [] := List.eq_nil_of_length_eq_zero (Nat.le_zero.1 h)
      subst this; simp [chunkGo]
  | succ n ih =>
      intro l h c hc
      cases l with
      | nil => simp [chunkGo] at hc
      | cons a rest =>
          rcases List.mem_cons.1 hc with h' | h'
          · subst h'; simp
          · exact ih (rest.drop k) (by
              simp only [List.length_drop]
              simp only [List.length_cons] at h
              omega) c h'

/-- A singleton list is a single chunk for any chunk size. -/
theorem chunkCore_singleton (k : Nat) (b : α) : chunkCore k [b] = [[b]] := by
  rw [show ([b] : List α) = b :: [] from rfl, chunkCore_cons]
  simp [chunkCore_nil]

/-! ### Lemmas about the `Map` model -/

theorem jsLookup_nil (k : K) : jsLookup ([] : JsMap K V) k = none := rfl

theorem jsLookup_cons (p : K × V) (m : JsMap K V) (k : K) :
    jsLookup (p :: m) k = if p.1 = k then some p.2 else jsLookup m k := by
  simp only [jsLookup, List.find?_cons]
  by_cases h : p.1 = k <;> simp [h]

theorem jsLookup_append (m₁ m₂ : JsMap K V) (k : K) :
    jsLookup (m₁ ++ m₂) k = (jsLookup m₁ k).or (jsLookup m₂ k) := by
  simp only [jsLookup, List.find?_append]
  cases m₁.find? (fun p => p.1 = k) <;> simp

theorem jsLookup_eq_none_of_not_mem {m : JsMap K V} {k : K}
    (h : k ∉ jsKeys m) : jsLookup m k = none := by
  induction m with
  | nil => rfl
  | cons p t ih =>
      rw [jsLookup_cons]
      simp only [jsKeys, List.map_cons, List.mem_cons, not_or] at h
      rw [if_neg (fun hp => h.1 hp.symm)]
      exact ih h.2

theorem jsLookup_isSome_iff_mem (m : JsMap K V) (k : K) :
    (jsLookup m k).isSome = true ↔ k ∈ jsKeys m := by
  induction m with
  | nil => simp [jsLookup, jsKeys]
  | cons p t ih =>
      rw [jsLookup_cons]
      by_cases h : p.1 = k
      · subst h; simp [jsKeys]
      · simp only [if_neg h, ih, jsKeys, List.map_cons, List.mem_cons]
        constructor
        · exact Or.inr
        · rintro (rfl | hk)
          · exact absurd rfl h
          · exact hk

/-- Updating one key leaves lookups of other keys untouched. -/
theorem jsLookup_map_update_ne {m : JsMap K V} {k k' : K} {v : V} (h : k ≠ k') :
    jsLookup (m.map (fun p => if p.1 = k' then (k', v) else p)) k = jsLookup m k := by
  induction m with
  | nil => rfl
  | cons p t ih =>
      simp only [List.map_cons]
      by_cases hp : p.1 = k'
      · rw [if_pos hp, jsLookup_cons, jsLookup_cons, if_neg (fun hc => h hc.symm),
          if_neg (fun hc => h (hp ▸ hc).symm), ih]
      · rw [if_neg hp, jsLookup_cons, jsLookup_cons, ih]

/-- Updating a present key makes its lookup return the new value. -/
theorem jsLookup_map_update_self {m : JsMap K V} {k : K} {v : V}
    (h : m.any (fun p => p.1 = k)) :
    jsLookup (m.map (fun p => if p.1 = k then (k, v) else p)) k = some v := by
  induction m with
  | nil => simp at h
  | cons p t ih =>
      simp only [List.map_cons]
      by_cases hp : p.1 = k
      · rw [if_pos hp, jsLookup_cons, if_pos rfl]
      · rw [if_neg hp, jsLookup_cons, if_neg hp]
        simp only [List.any_cons, Bool.or_eq_true, decide_eq_true_eq] at h
        exact ih (List.any_eq_true.2 (by
          rcases h with h | h
          · exact absurd h hp
          · exact List.any_eq_true.1 h))

theorem jsLookup_jsSet (m : JsMap K V) (k' : K) (v : V) (k : K) :
    jsLookup (jsSet m k' v) k = if k = k' then some v else jsLookup m k := by
  unfold jsSet
  by_cases hany : m.any (fun p => p.1 = k')
  · rw [if_pos hany]
    by_cases hk : k = k'
    · subst hk
      rw [if_pos rfl, jsLookup_map_update_self hany]
    · rw [if_neg hk, jsLookup_map_update_ne hk]
  · rw [if_neg hany, jsLookup_append]
    by_cases hk : k = k'
    · subst hk
      have hnm : k ∉ jsKeys m := by
        intro hmem
        apply hany
        simp only [jsKeys, List.mem_map] at hmem
        obtain ⟨p, hp, hpk⟩ := hmem
        exact List.any_eq_true.2 ⟨p, hp, by simp [hpk]⟩
      rw [if_pos rfl, jsLookup_eq_none_of_not_mem hnm]
      simp [jsLookup_cons]
    · rw [if_neg hk, jsLookup_cons, if_neg (fun hc => hk hc.symm)]
      simp [jsLookup_nil]

/-- The `set` of an absent key appends the entry. -/
theorem jsSet_absent {m : JsMap K V} {k : K} (v : V) (h : k ∉ jsKeys m) :
    jsSet m k v = m ++ [(k, v)] := by
  unfold jsSet
  rw [if_neg]
  intro hany
  obtain ⟨p, hp, hpk⟩ := List.any_eq_true.1 hany
  apply h
  show k ∈ m.map Prod.fst
  exact List.mem_map.2 ⟨p, hp, by simpa using hpk⟩

theorem jsKeys_jsSet_mem (m : JsMap K V) (k' : K) (v : V) (a : K) :
    a ∈ jsKeys (jsSet m k' v) ↔ a ∈ jsKeys m ∨ a = k' := by
  unfold jsSet
  by_cases hany : m.any (fun p => p.1 = k')
  · rw [if_pos hany]
    simp only [jsKeys, List.map_map, List.mem_map, Function.comp]
    constructor
    · rintro ⟨p, hp, hpa⟩
      by_cases hpk : p.1 = k'
      · simp only [if_pos hpk] at hpa
        exact Or.inr hpa.symm
      · simp only [if_neg hpk] at hpa
        exact Or.inl ⟨p, hp, hpa⟩
    · rintro (⟨p, hp, hpa⟩ | rfl)
      · refine ⟨p, hp, ?_⟩
        by_cases hpk : p.1 = k'
        · simp only [if_pos hpk]; rw [← hpa, hpk]
        · simp only [if_neg hpk]; exact hpa
      · obtain ⟨p, hp, hpk⟩ := List.any_eq_true.1 hany
        simp only [decide_eq_true_eq] at hpk
        exact ⟨p, hp, by simp [hpk]⟩
  · rw [if_neg hany]
    simp [jsKeys]

theorem jsOfList_eq_jsSetAll (l : List (K × V)) : jsOfList l = jsSetAll [] l := rfl

theorem mergeMapsArr_cons (m : JsMap K V) (rest : List (JsMap K V)) :
    mergeMapsArr (m :: rest) = rest.foldl jsSetAll (jsOfList m) := rfl

omit [DecidableEq K] in
theorem jsKeys_append (m₁ m₂ : JsMap K V) :
    jsKeys (m₁ ++ m₂) = jsKeys m₁ ++ jsKeys m₂ := by
  simp [jsKeys]

/-- Folding in entries with fresh, mutually distinct keys appends them. -/
theorem jsSetAll_disjoint (l : List (K × V)) :
    ∀ acc : JsMap K V, (jsKeys acc ++ jsKeys l).Nodup → jsSetAll acc l = acc ++ l := by
  induction l with
  | nil => intro acc _; simp [jsSetAll]
  | cons p t ih =>
      intro acc hnd
      have hp : p.1 ∉ jsKeys acc := by
        have := (List.nodup_append.1 hnd).2.2
        intro hmem
        exact this hmem (by simp [jsKeys])
      show jsSetAll (jsSet acc p.1 p.2) t = acc ++ p :: t
      rw [jsSet_absent p.2 hp, ih (acc ++ [(p.1, p.2)]) ?_]
      · simp
      · rw [jsKeys_append]
        simp only [jsKeys, List.map_cons, List.map_nil] at hnd ⊢
        have : acc.map Prod.fst ++ [p.1] ++ t.map Prod.fst
            = acc.map Prod.fst ++ p.1 :: t.map Prod.fst := by simp
        rw [this]
        exact hnd

/-- A `Map` built from entries with distinct keys holds exactly those
entries in order. -/
theorem jsOfList_nodup (l : List (K × V)) (h : (l.map Prod.fst).Nodup) :
    jsOfList l = l := by
  rw [jsOfList_eq_jsSetAll, jsSetAll_disjoint l [] (by simpa [jsKeys] using h)]
  simp

theorem jsLookup_jsSetAll (l : List (K × V)) :
    ∀ acc : JsMap K V, (l.map Prod.fst).Nodup →
      ∀ k, jsLookup (jsSetAll acc l) k = (jsLookup l k).or (jsLookup acc k) := by
  induction l with
  | nil => intro acc _ k; simp [jsSetAll, jsLookup_nil]
  | cons p t ih =>
      intro acc hnd k
      have hnd2 : (p.1 :: t.map Prod.fst).Nodup := by
        rw [List.map_cons] at hnd; exact hnd
      have hnd' : (t.map Prod.fst).Nodup := (List.nodup_cons.1 hnd2).2
      show jsLookup (jsSetAll (jsSet acc p.1 p.2) t) k = _
      rw [ih _ hnd' k, jsLookup_jsSet, jsLookup_cons]
      by_cases hk : p.1 = k
      · have hkt : k ∉ jsKeys t := by
          have := (List.nodup_cons.1 hnd2).1
          subst hk
          simpa [jsKeys] using this
        rw [if_pos hk, jsLookup_eq_none_of_not_mem hkt, if_pos hk.symm]
        rfl
      · rw [if_neg hk, if_neg (fun hc => hk hc.symm)]

theorem jsKeys_jsSetAll_mem (l : List (K × V)) :
    ∀ acc : JsMap K V, ∀ a,
      a ∈ jsKeys (jsSetAll acc l) ↔ a ∈ jsKeys acc ∨ a ∈ jsKeys l := by
  induction l with
  | nil => intro acc a; simp [jsSetAll, jsKeys]
  | cons p t ih =>
      intro acc a
      show a ∈ jsKeys (jsSetAll (jsSet acc p.1 p.2) t) ↔ _
      rw [ih, jsKeys_jsSet_mem]
      simp only [jsKeys, List.map_cons, List.mem_cons]
      tauto

/-! ### Merge semantics -/

theorem list_findSome_append {α β : Type} (f : α → Option β) (l₁ l₂ : List α) :
    (l₁ ++ l₂).findSome? f = ((l₁.findSome? f).or (l₂.findSome? f)) := by
  induction l₁ with
  | nil => rfl
  | cons a t ih =>
      simp only [List.cons_append, List.findSome?_cons]
      cases h : f a
      · exact ih
      · rfl

theorem lastLookup_cons (m : JsMap K V) (rest : List (JsMap K V)) (k : K) :
    lastLookup (m :: rest) k = (lastLookup rest k).or (jsLookup m k) := by
  unfold lastLookup
  rw [List.reverse_cons, list_findSome_append]
  congr 1
  simp [List.findSome?]
  cases jsLookup m k <;> rfl

theorem foldl_or_eq_lastLookup (k : K) :
    ∀ (maps : List (JsMap K V)) (init : Option V),
      maps.foldl (fun acc m => (jsLookup m k).or acc) init
        = (lastLookup maps k).or init := by
  intro maps
  induction maps with
  | nil => intro init; simp [lastLookup, List.findSome?]
  | cons m t ih =>
      intro init
      rw [List.foldl_cons, ih, lastLookup_cons, Option.or_assoc]

theorem jsLookup_foldl_jsSetAll (k : K) :
    ∀ (rest : List (JsMap K V)) (acc : JsMap K V),
      (∀ mp ∈ rest, (jsKeys mp).Nodup) →
      jsLookup (rest.foldl jsSetAll acc) k
        = rest.foldl (fun a mp => (jsLookup mp k).or a) (jsLookup acc k) := by
  intro rest
  induction rest with
  | nil => intro acc _; rfl
  | cons mp t ih =>
      intro acc hnd
      rw [List.foldl_cons, List.foldl_cons,
        ih (jsSetAll acc mp) (fun m hm => hnd m (List.mem_cons_of_mem _ hm)),
        jsLookup_jsSetAll mp acc (hnd mp (List.mem_cons_self _ _)) k]

theorem mem_keys_foldl_jsSetAll :
    ∀ (rest : List (JsMap K V)) (acc : JsMap K V) (a : K),
      a ∈ jsKeys (rest.foldl jsSetAll acc)
        ↔ a ∈ jsKeys acc ∨ ∃ mp ∈ rest, a ∈ jsKeys mp := by
  intro rest
  induction rest with
  | nil => intro acc a; simp
  | cons mp t ih =>
      intro acc a
      rw [List.foldl_cons, ih, jsKeys_jsSetAll_mem]
      constructor
      · rintro ((h | h) | ⟨m, hm, h⟩)
        · exact Or.inl h
        · exact Or.inr ⟨mp, List.mem_cons_self _ _, h⟩
        · exact Or.inr ⟨m, List.mem_cons_of_mem _ hm, h⟩
      · rintro (h | ⟨m, hm, h⟩)
        · exact Or.inl (Or.inl h)
        · rcases List.mem_cons.1 hm with rfl | hm'
          · exact Or.inl (Or.inr h)
          · exact Or.inr ⟨m, hm', h⟩

/-- At every in-repo call site `chunk` receives a positive constant, so
it reduces to the `chunkCore` loop. -/
theorem chunk_pos_eq_chunkCore {α : Type} (l : List α) (m : Nat) (h : 0 < m) :
    chunk l (m : Int) = .ok (chunkCore (m - 1) l) := by
  unfold chunk
  rw [if_neg (by exact_mod_cast Nat.not_le.2 h)]
  congr 1

/-- Claim C2: `chunk(items, maxSize)` fails — with the InvalidArgument
message — exactly when `maxSize ≤ 0`; for positive `maxSize` it returns
an ordered list of sub-lists, each of length at most `maxSize`, whose
in-order concatenation reconstructs `items` exactly. (The embedding is
a pure function of `items`, so absence of side effects is inherent.) -/
theorem chunk_spec {α : Type} (items : List α) (maxSize : Int) :
    (chunk items maxSize = .error "Chunk size must be greater than 0" ↔ maxSize ≤ 0) ∧
    (∀ cs, chunk items maxSize = .ok cs →
      cs.flatten = items ∧ ∀ c ∈ cs, (c.length : Int) ≤ maxSize) := by
  constructor
  · constructor
    · intro h
      by_contra hpos
      unfold chunk at h
      rw [if_neg hpos] at h
      cases h
    · intro h
      unfold chunk
      rw [if_pos h]
  · intro cs hcs
    unfold chunk at hcs
    by_cases h : maxSize ≤ 0
    · rw [if_pos h] at hcs
      cases hcs
    · rw [if_neg h] at hcs
      have hcs' : chunkCore (maxSize.toNat - 1) items = cs := by
        injection hcs
      subst hcs'
      refine ⟨chunkCore_flatten _ _, ?_⟩
      intro c hc
      have hle := chunkCore_length_le (maxSize.toNat - 1) items c hc
      have hpos : 0 < maxSize := by omega
      have h1 : 1 ≤ maxSize.toNat := by omega
      have h2 : (maxSize.toNat : Int) = maxSize := Int.toNat_of_nonneg (by omega)
      omega

/-- Witness for `chunk_spec` at `items = [1,2,3,4,5]`, `maxSize = 2`
and at the invalid sizes `0` and `-1`. -/
theorem chunk_spec_witness :
    chunk ([1, 2, 3, 4, 5] : List Nat) (-1) = .error "Chunk size must be greater than 0" ∧
    chunk ([1, 2, 3, 4, 5] : List Nat) 0 = .error "Chunk size must be greater than 0" ∧
    (([[1, 2], [3, 4], [5]] : List (List Nat)).flatten = [1, 2, 3, 4, 5] ∧
      ∀ c ∈ ([[1, 2], [3, 4], [5]] : List (List Nat)), (c.length : Int) ≤ 2) := by
  refine ⟨(chunk_spec [1, 2, 3, 4, 5] (-1)).1.2 (by decide),
    (chunk_spec [1, 2, 3, 4, 5] 0).1.2 (by decide),
    (chunk_spec [1, 2, 3, 4, 5] 2).2 [[1, 2], [3, 4], [5]] (by rfl)⟩

/-- Claim C7: `mergeMapsArr` iterates the maps in order: every key ends
up bound to the value from the last input map containing it, a key is
present in the result exactly when some input map contains it (so no
entry is dropped except by a later overwrite), and the empty input
yields the empty map. -/
theorem mergeMapsArr_spec {K V : Type} [DecidableEq K]
    (maps : List (JsMap K V)) (hnd : ∀ m ∈ maps, (jsKeys m).Nodup) :
    (∀ k, jsLookup (mergeMapsArr maps) k = lastLookup maps k) ∧
    (∀ k, k ∈ jsKeys (mergeMapsArr maps) ↔ ∃ m ∈ maps, k ∈ jsKeys m) ∧
    mergeMapsArr ([] : List (JsMap K V)) = [] := by
  refine ⟨?_, ?_, rfl⟩
  · intro k
    cases maps with
    | nil => rfl
    | cons m rest =>
        rw [mergeMapsArr_cons,
          jsLookup_foldl_jsSetAll k rest (jsOfList m)
            (fun mp hm => hnd mp (List.mem_cons_of_mem _ hm)),
          jsOfList_nodup m (hnd m (List.mem_cons_self _ _)),
          foldl_or_eq_lastLookup, lastLookup_cons]
  · intro k
    cases maps with
    | nil => simp [mergeMapsArr, jsKeys]
    | cons m rest =>
        rw [mergeMapsArr_cons, mem_keys_foldl_jsSetAll,
          jsOfList_nodup m (hnd m (List.mem_cons_self _ _))]
        constructor
        · rintro (h | ⟨mp, hm, h⟩)
          · exact ⟨m, List.mem_cons_self _ _, h⟩
          · exact ⟨mp, List.mem_cons_of_mem _ hm, h⟩
        · rintro ⟨mp, hm, h⟩
          rcases List.mem_cons.1 hm with rfl | hm'
          · exact Or.inl h
          · exact Or.inr ⟨mp, hm', h⟩

/-- Witness for `mergeMapsArr_spec`: the specification's two worked
examples, `[{x:1},{x:2}] ↦ {x:2}` and `[{x:1},{y:2}] ↦ {x:1,y:2}`. -/
theorem mergeMapsArr_spec_witness :
    jsLookup (mergeMapsArr [[((0 : Nat), (1 : Nat))], [(0, 2)]]) 0
      = lastLookup [[((0 : Nat), (1 : Nat))], [(0, 2)]] 0 ∧
    mergeMapsArr [[((0 : Nat), (1 : Nat))], [(0, 2)]] = [(0, 2)] ∧
    mergeMapsArr [[((0 : Nat), (1 : Nat))], [(1, 2)]] = [(0, 1), (1, 2)] := by
  exact ⟨(mergeMapsArr_spec _ (by decide)).1 0, by decide, by decide⟩

/-- Claim C4: In the bulk-view entry list, the record at position `i` is
keyed by the requested id at the same position `i`; a zero-length raw
log there yields the sentinel `{ id: ids[i], deleted: true }` without
being parsed, and a non-empty raw log is decoded via the view's
registered layout and combined with `ids[i]`. -/
theorem view_deleted_sentinel {R : Type} (dec : List Nat → R)
    (assetIds : List Nat) (logs : List (List Nat)) (i : Nat)
    (lv : List Nat) (idv : Nat)
    (hlog : logs[i]? = some lv) (hid : assetIds[i]? = some idv) :
    (lv.length = 0 →
      (viewEntries dec assetIds logs)[i]? =
        some (idv, ⟨idv, ParsedLog.deleted⟩)) ∧
    (lv.length ≠ 0 →
      (viewEntries dec assetIds logs)[i]? =
        some (idv, ⟨idv, ParsedLog.record (dec lv)⟩)) := by
  have hgetD : assetIds.getD i 0 = idv := by
    rw [List.getD_eq_getElem?_getD, hid]
    rfl
  have hentry : (viewEntries dec assetIds logs)[i]? =
      some (idv, ⟨idv, if lv.length ≠ 0 then .record (dec lv) else .deleted⟩) := by
    unfold viewEntries parseLogsAs
    rw [List.getElem?_map, List.getElem?_enum, List.getElem?_map, hlog]
    simp only [Option.map_some']
    rw [hgetD]
  constructor
  · intro hz
    rw [hentry, if_neg (by omega)]
  · intro hnz
    rw [hentry, if_pos hnz]

/-- Witness for `view_deleted_sentinel`: a batch of 3 identifiers whose
2nd raw record is empty decodes to
`[record0, {id: id1, deleted: true}, record2]`. -/
theorem view_deleted_sentinel_witness :
    (viewEntries (fun l => l) [10, 11, 12] [[1], [], [2]])[1]? =
      some (11, ⟨11, ParsedLog.deleted⟩) ∧
    viewEntries (fun l => l) [10, 11, 12] [[1], [], [2]] =
      [(10, ⟨10, ParsedLog.record [1]⟩), (11, ⟨11, ParsedLog.deleted⟩),
        (12, ⟨12, ParsedLog.record [2]⟩)] := by
  refine ⟨(view_deleted_sentinel (fun l => l) [10, 11, 12] [[1], [], [2]] 1 [] 11
    rfl rfl).1 rfl, by rfl⟩

/-! ### Bounded concurrent execution: completion order cannot change
the assembled result -/

/-- Running the completions in any order writes each task's result
into that task's own slot: the final slot assignment depends only on
which tasks completed, never on when. -/
theorem pMapRun_ok_invariant {α β E : Type} (f : α → Except E β) (g : α → β)
    (tasks : List α) (hg : ∀ a ∈ tasks, f a = .ok (g a)) :
    ∀ (order : List Nat) (slots : Nat → Option β),
      pMapRun f tasks order slots =
        .ok (fun i => if i ∈ order then (tasks[i]?.map g).or (slots i) else slots i) := by
  intro order
  induction order with
  | nil =>
      intro slots
      exact congrArg Except.ok (funext fun i => by simp [pMapRun])
  | cons j order ih =>
      intro slots
      cases htj : tasks[j]? with
      | none =>
          show (match tasks[j]? with
            | none => pMapRun f tasks order slots
            | some a => match f a with
              | .error e => .error e
              | .ok b => pMapRun f tasks order (fun i => if i = j then some b else slots i)) = _
          rw [htj]
          rw [ih slots]
          refine congrArg Except.ok (funext fun i => ?_)
          by_cases hij : i = j
          · subst hij
            rw [htj]
            by_cases hio : i ∈ order <;>
              simp [hio, List.mem_cons, Option.or]
          · simp [List.mem_cons, hij]
      | some a =>
          have hfa : f a = .ok (g a) := hg a (List.getElem?_mem htj)
          show (match tasks[j]? with
            | none => pMapRun f tasks order slots
            | some a => match f a with
              | .error e => .error e
              | .ok b => pMapRun f tasks order (fun i => if i = j then some b else slots i)) = _
          rw [htj]
          show (match f a with
            | Except.error e => (Except.error e : Except E (Nat → Option β))
            | Except.ok b => pMapRun f tasks order
                (fun i => if i = j then some b else slots i)) = _
          rw [hfa]
          show pMapRun f tasks order (fun i => if i = j then some (g a) else slots i) = _
          rw [ih]
          refine congrArg Except.ok (funext fun i => ?_)
          by_cases hij : i = j
          · subst hij
            rw [htj]
            by_cases hio : i ∈ order <;>
              simp [hio, List.mem_cons, Option.or]
          · simp [List.mem_cons, hij]

/-- If some completed task rejects, the run rejects — with a rejection
produced by one of the tasks. -/
theorem pMapRun_error_of_exists {α β E : Type} (f : α → Except E β) (tasks : List α) :
    ∀ (order : List Nat) (slots : Nat → Option β),
      (∃ j ∈ order, ∃ a, tasks[j]? = some a ∧ ∃ e0, f a = .error e0) →
      ∃ e, pMapRun f tasks order slots = .error e ∧ ∃ a ∈ tasks, f a = .error e := by
  intro order
  induction order with
  | nil =>
      rintro slots ⟨j, hj, -⟩
      simp at hj
  | cons j order ih =>
      rintro slots ⟨j', hj', a', ha', e0, he0⟩
      cases htj : tasks[j]? with
      | none =>
          have hnext : ∃ j'' ∈ order, ∃ a, tasks[j'']? = some a ∧ ∃ e1, f a = .error e1 := by
            rcases List.mem_cons.1 hj' with rfl | hmem
            · rw [htj] at ha'; cases ha'
            · exact ⟨j', hmem, a', ha', e0, he0⟩
          obtain ⟨e, he, hw⟩ := ih slots hnext
          refine ⟨e, ?_, hw⟩
          show (match tasks[j]? with
            | none => pMapRun f tasks order slots
            | some a => match f a with
              | Except.error e => (Except.error e : Except E (Nat → Option β))
              | Except.ok b => pMapRun f tasks order
                  (fun i => if i = j then some b else slots i)) = Except.error e
          rw [htj]
          exact he
      | some a =>
          cases hfa : f a with
          | error e =>
              refine ⟨e, ?_, a, List.getElem?_mem htj, hfa⟩
              show (match tasks[j]? with
                | none => pMapRun f tasks order slots
                | some a => match f a with
                  | Except.error e => (Except.error e : Except E (Nat → Option β))
                  | Except.ok b => pMapRun f tasks order
                      (fun i => if i = j then some b else slots i)) = Except.error e
              rw [htj]
              show (match f a with
                | Except.error e => (Except.error e : Except E (Nat → Option β))
                | Except.ok b => pMapRun f tasks order
                    (fun i => if i = j then some b else slots i)) = Except.error e
              rw [hfa]
          | ok b =>
              have hnext : ∃ j'' ∈ order, ∃ a, tasks[j'']? = some a ∧ ∃ e1, f a = .error e1 := by
                rcases List.mem_cons.1 hj' with rfl | hmem
                · rw [htj] at ha'
                  have haa : a' = a := by
                    injection ha' with h
                    exact h.symm
                  subst haa
                  rw [hfa] at he0
                  cases he0
                · exact ⟨j', hmem, a', ha', e0, he0⟩
              obtain ⟨e, he, hw⟩ := ih _ hnext
              refine ⟨e, ?_, hw⟩
              show (match tasks[j]? with
                | none => pMapRun f tasks order slots
                | some a => match f a with
                  | Except.error e => (Except.error e : Except E (Nat → Option β))
                  | Except.ok b => pMapRun f tasks order
                      (fun i => if i = j then some b else slots i)) = Except.error e
              rw [htj]
              show (match f a with
                | Except.error e => (Except.error e : Except E (Nat → Option β))
                | Except.ok b => pMapRun f tasks order
                    (fun i => if i = j then some b else slots i)) = Except.error e
              rw [hfa]
              exact he

/-- Reading back a fully populated slot function over the index range
recovers the mapped task list. -/
theorem filterMap_range_eq_map {α β : Type} (g : α → β) :
    ∀ (l : List α) (h : Nat → Option β),
      (∀ i (hi : i < l.length), h i = some (g l[i])) →
      (List.range l.length).filterMap h = l.map g := by
  intro l
  induction l with
  | nil => intro h _; rfl
  | cons a t ih =>
      intro h hh
      rw [List.length_cons, List.range_succ_eq_map, List.filterMap_cons,
        hh 0 (by simp)]
      simp only [List.getElem_cons_zero]
      rw [List.filterMap_map]
      rw [ih (h ∘ Nat.succ) (fun i hi => by
        have := hh (i + 1) (by simpa using Nat.succ_lt_succ hi)
        simpa [List.getElem_cons_succ] using this)]
      rfl

/-- When every task succeeds and the completion order covers every
task, `p-map` resolves to the per-task results in input order — for
every completion order. -/
theorem pMapResult_ok {α β E : Type} (f : α → Except E β) (g : α → β)
    (tasks : List α) (hg : ∀ a ∈ tasks, f a = .ok (g a))
    (order : List Nat) (hcov : ∀ j, j < tasks.length → j ∈ order) :
    pMapResult f tasks order = .ok (tasks.map g) := by
  unfold pMapResult
  rw [pMapRun_ok_invariant f g tasks hg order]
  show Except.ok ((List.range tasks.length).filterMap _) = _
  refine congrArg Except.ok ?_
  apply filterMap_range_eq_map
  intro i hi
  rw [if_pos (hcov i hi), List.getElem?_eq_getElem hi]
  rfl

/-- If some task fails and the completion order covers every task, the
run rejects with one of the task failures. -/
theorem pMapResult_error {α β E : Type} (f : α → Except E β)
    (tasks : List α) (order : List Nat)
    (hcov : ∀ j, j < tasks.length → j ∈ order)
    (hfail : ∃ c ∈ tasks, ∃ e0, f c = .error e0) :
    ∃ e, pMapResult f tasks order = .error e ∧ ∃ c ∈ tasks, f c = .error e := by
  obtain ⟨c, hc, e0, he0⟩ := hfail
  obtain ⟨j, hjlen, hj⟩ := List.getElem_of_mem hc
  have hj' : tasks[j]? = some c := by
    rw [List.getElem?_eq_getElem hjlen, hj]
  obtain ⟨e, herr, hw⟩ := pMapRun_error_of_exists f tasks order (fun _ => none)
    ⟨j, hcov j hjlen, c, hj', e0, he0⟩
  refine ⟨e, ?_, hw⟩
  unfold pMapResult
  rw [herr]
  rfl

/-! ### The unbatched view call -/

/-- The `wrapErrors` is the identity on successful outcomes, in both
directions. -/
theorem wrapErrorsUtil_ok_iff {T : Type} (r : Except SimError T) (v : T) :
    wrapErrorsUtil r = .ok v ↔ r = .ok v := by
  cases r with
  | ok w => exact Iff.rfl
  | error e =>
      obtain ⟨msg, om, es⟩ := e
      constructor
      · intro h
        cases es with
        | none => simp [wrapErrorsUtil] at h
        | some states =>
            cases hf : findLogErr states with
            | none => simp [wrapErrorsUtil, hf] at h
            | some d => simp [wrapErrorsUtil, hf] at h
      · intro h; cases h

/-- A successful simulate call passes through `wrapErrors` and the view
is assembled from its logs. -/
theorem viewSingle_ok {R : Type} (dec : List Nat → R)
    (simOf : List Nat → Except SimError (List (List Nat)))
    (assetIds : List Nat) (logs : List (List Nat))
    (hsim : simOf assetIds = .ok logs) :
    viewSingle dec simOf assetIds = .ok (viewAssemble dec assetIds logs) := by
  unfold viewSingle
  rw [hsim]
  rfl

/-- A successful view call comes from a successful simulate call. -/
theorem viewSingle_ok_inv {R : Type} (dec : List Nat → R)
    (simOf : List Nat → Except SimError (List (List Nat)))
    (assetIds : List Nat) (m : JsMap Nat (AssetValue R))
    (h : viewSingle dec simOf assetIds = .ok m) :
    ∃ logs, simOf assetIds = .ok logs ∧ m = viewAssemble dec assetIds logs := by
  unfold viewSingle at h
  cases hw : wrapErrorsUtil (simOf assetIds) with
  | error e => rw [hw] at h; cases h
  | ok logs =>
      rw [hw] at h
      have hlogs : simOf assetIds = .ok logs := (wrapErrorsUtil_ok_iff _ _).1 hw
      refine ⟨logs, hlogs, ?_⟩
      injection h with h'
      exact h'.symm

/-! ### The keys of an assembled view -/

/-- Projecting an indexed map through the index function only. -/
theorem enum_map_fst_fun {α β : Type} (l : List α) (g : Nat → β) :
    l.enum.map (fun p => g p.1) = (List.range l.length).map g := by
  rw [List.enum_eq_zip_range]
  have h1 : ((List.range l.length).zip l).map (fun p => g p.1)
      = (((List.range l.length).zip l).map Prod.fst).map g := by
    rw [List.map_map]
    rfl
  rw [h1, List.map_fst_zip _ _ (by simp)]

/-- Reading a list back by position. -/
theorem range_map_getD {α : Type} (l : List α) (d : α) :
    (List.range l.length).map (fun i => l.getD i d) = l := by
  induction l with
  | nil => rfl
  | cons a t ih =>
      rw [List.length_cons, List.range_succ_eq_map, List.map_cons, List.map_map]
      refine congrArg₂ List.cons rfl ?_
      calc (List.range t.length).map ((fun i => (a :: t).getD i d) ∘ Nat.succ)
          = (List.range t.length).map (fun i => t.getD i d) := by
            apply List.map_congr_left
            intro i hi
            rfl
        _ = t := ih

/-- The key list of the assembled entry list is exactly the request
list (in request order) whenever the transport returned one log per
requested id. -/
theorem viewEntries_keys {R : Type} (dec : List Nat → R)
    (assetIds : List Nat) (logs : List (List Nat))
    (hlen : logs.length = assetIds.length) :
    (viewEntries dec assetIds logs).map Prod.fst = assetIds := by
  unfold viewEntries
  rw [List.map_map]
  have h1 : (Prod.fst ∘ fun p : Nat × ParsedLog R =>
      (assetIds.getD p.1 0, (⟨assetIds.getD p.1 0, p.2⟩ : AssetValue R)))
      = fun p : Nat × ParsedLog R => assetIds.getD p.1 0 := rfl
  rw [h1]
  have h2 : (parseLogsAs dec logs).length = assetIds.length := by
    unfold parseLogsAs
    rw [List.length_map, hlen]
  calc (parseLogsAs dec logs).enum.map (fun p => assetIds.getD p.1 0)
      = (List.range (parseLogsAs dec logs).length).map (fun i => assetIds.getD i 0) :=
        enum_map_fst_fun (parseLogsAs dec logs) (fun i => assetIds.getD i 0)
    _ = (List.range assetIds.length).map (fun i => assetIds.getD i 0) := by rw [h2]
    _ = assetIds := range_map_getD assetIds 0

/-- With globally distinct keys, folding whole maps into the
accumulator just appends them. -/
theorem foldl_jsSetAll_disjoint {K V : Type} [DecidableEq K] :
    ∀ (rest : List (JsMap K V)) (acc : JsMap K V),
      (jsKeys acc ++ (rest.map jsKeys).flatten).Nodup →
      rest.foldl jsSetAll acc = acc ++ rest.flatten := by
  intro rest
  induction rest with
  | nil => intro acc _; simp [jsKeys]
  | cons mp t ih =>
      intro acc hnd
      rw [List.foldl_cons]
      have hnd1 : (jsKeys acc ++ jsKeys mp).Nodup := by
        refine List.Nodup.sublist ?_ hnd
        simp only [List.map_cons, List.flatten_cons]
        rw [← List.append_assoc]
        exact List.sublist_append_left _ _
      rw [jsSetAll_disjoint mp acc hnd1]
      rw [ih (acc ++ mp) (by
        rw [jsKeys_append]
        simp only [List.map_cons, List.flatten_cons] at hnd
        rw [List.append_assoc]
        exact hnd)]
      simp [List.append_assoc]

/-- Merging maps with globally distinct keys concatenates them in
order. -/
theorem mergeMapsArr_disjoint {K V : Type} [DecidableEq K]
    (ms : List (JsMap K V)) (hnd : ((ms.map jsKeys).flatten).Nodup) :
    mergeMapsArr ms = ms.flatten := by
  cases ms with
  | nil => rfl
  | cons m rest =>
      rw [mergeMapsArr_cons]
      have hmk : (jsKeys m).Nodup := by
        refine List.Nodup.sublist ?_ hnd
        simp only [List.map_cons, List.flatten_cons]
        exact List.sublist_append_left _ _
      rw [jsOfList_nodup m hmk]
      rw [foldl_jsSetAll_disjoint rest m (by
        simpa [List.map_cons, List.flatten_cons] using hnd)]
      rfl

/-- Key membership in a built `Map` matches key membership in its
entry list. -/
theorem mem_keys_jsOfList {K V : Type} [DecidableEq K]
    (l : List (K × V)) (a : K) :
    a ∈ jsKeys (jsOfList l) ↔ a ∈ jsKeys l := by
  rw [jsOfList_eq_jsSetAll, jsKeys_jsSetAll_mem]
  simp [jsKeys]

/-- A key is present in the merged map exactly when some input map
contains it (no distinctness needed). -/
theorem mem_keys_mergeMapsArr {K V : Type} [DecidableEq K]
    (ms : List (JsMap K V)) (a : K) :
    a ∈ jsKeys (mergeMapsArr ms) ↔ ∃ m ∈ ms, a ∈ jsKeys m := by
  cases ms with
  | nil => simp [mergeMapsArr, jsKeys]
  | cons m rest =>
      rw [mergeMapsArr_cons, mem_keys_foldl_jsSetAll, mem_keys_jsOfList]
      constructor
      · rintro (h | ⟨mp, hm, h⟩)
        · exact ⟨m, List.mem_cons_self _ _, h⟩
        · exact ⟨mp, List.mem_cons_of_mem _ hm, h⟩
      · rintro ⟨mp, hm, h⟩
        rcases List.mem_cons.1 hm with rfl | hm'
        · exact Or.inl h
        · exact Or.inr ⟨mp, hm', h⟩

/-- For a request with distinct ids and one log per id, the assembled
view `Map` is literally the entry list, keyed by the request in request
order. -/
theorem viewAssemble_keys {R : Type} (dec : List Nat → R)
    (assetIds : List Nat) (logs : List (List Nat))
    (hlen : logs.length = assetIds.length) (hnd : assetIds.Nodup) :
    jsKeys (viewAssemble dec assetIds logs) = assetIds := by
  unfold viewAssemble
  rw [jsOfList_nodup _ (by rw [viewEntries_keys dec assetIds logs hlen]; exact hnd)]
  exact viewEntries_keys dec assetIds logs hlen

/-- Key membership in an assembled view (no distinctness needed). -/
theorem mem_keys_viewAssemble {R : Type} (dec : List Nat → R)
    (assetIds : List Nat) (logs : List (List Nat))
    (hlen : logs.length = assetIds.length) (a : Nat) :
    a ∈ jsKeys (viewAssemble dec assetIds logs) ↔ a ∈ assetIds := by
  unfold viewAssemble
  rw [mem_keys_jsOfList]
  show a ∈ (viewEntries dec assetIds logs).map Prod.fst ↔ _
  rw [viewEntries_keys dec assetIds logs hlen]

theorem jsKeys_flatten {K V : Type} (L : List (List (K × V))) :
    jsKeys (L.flatten) = (L.map jsKeys).flatten := by
  show L.flatten.map Prod.fst = _
  rw [List.map_flatten]
  rfl

/-- Claim C1: A bulk read of distinct identifiers that exceeds the
view's capacity is split into chunks, and — for every completion order
of the per-chunk remote calls that settles each chunk — the returned
`Map` has key iteration order exactly the request order, hence exactly
one entry per requested identifier. -/
theorem bulk_order_preserved {R : Type} (dec : List Nat → R)
    (simOf : List Nat → Except SimError (List (List Nat)))
    (methodMax : Nat) (order : List Nat) (assetIds : List Nat)
    (logsOf : List Nat → List (List Nat))
    (hnd : assetIds.Nodup)
    (hbig : assetIds.length > methodMax)
    (hcov : ∀ j, j < (chunkCore (methodMax - 1) assetIds).length → j ∈ order)
    (hsim : ∀ c ∈ chunkCore (methodMax - 1) assetIds, simOf c = .ok (logsOf c))
    (hlen : ∀ c ∈ chunkCore (methodMax - 1) assetIds, (logsOf c).length = c.length) :
    ∃ m, viewGetter dec simOf methodMax order assetIds = .ok m ∧
      jsKeys m = assetIds := by
  have hg : ∀ c ∈ chunkCore (methodMax - 1) assetIds,
      viewSingle dec simOf c = .ok (viewAssemble dec c (logsOf c)) :=
    fun c hc => viewSingle_ok dec simOf c (logsOf c) (hsim c hc)
  have hpm : pMapResult (viewSingle dec simOf) (chunkCore (methodMax - 1) assetIds) order
      = .ok ((chunkCore (methodMax - 1) assetIds).map
          (fun c => viewAssemble dec c (logsOf c))) :=
    pMapResult_ok _ _ _ hg order hcov
  have hfl : (chunkCore (methodMax - 1) assetIds).flatten = assetIds :=
    chunkCore_flatten _ _
  have hfn : (chunkCore (methodMax - 1) assetIds).flatten.Nodup := by
    rw [hfl]; exact hnd
  have hcnd : ∀ c ∈ chunkCore (methodMax - 1) assetIds, c.Nodup :=
    (List.nodup_flatten.1 hfn).1
  have hkeys : ((chunkCore (methodMax - 1) assetIds).map
      (fun c => viewAssemble dec c (logsOf c))).map jsKeys
      = chunkCore (methodMax - 1) assetIds := by
    rw [List.map_map]
    have := List.map_congr_left (l := chunkCore (methodMax - 1) assetIds)
      (f := jsKeys ∘ fun c => viewAssemble dec c (logsOf c)) (g := id)
      (fun c hc => viewAssemble_keys dec c (logsOf c) (hlen c hc) (hcnd c hc))
    rw [this, List.map_id]
  refine ⟨mergeMapsArr ((chunkCore (methodMax - 1) assetIds).map
    (fun c => viewAssemble dec c (logsOf c))), ?_, ?_⟩
  · unfold viewGetter
    rw [if_pos hbig]
    unfold batchCall
    rw [hpm]
    rfl
  · rw [mergeMapsArr_disjoint _ (by rw [hkeys, hfl]; exact hnd)]
    rw [jsKeys_flatten, hkeys, hfl]

/-- Witness for `bulk_order_preserved`: the request `[1,2,3,4]` split
into two chunks, with chunk 2 completing before chunk 1 (completion
order `[1,0]`), still yields key order `[1,2,3,4]`. -/
theorem bulk_order_preserved_witness :
    ∃ m, viewGetter (fun l => l) (fun c => .ok (c.map (fun _ => [7])))
        2 [1, 0] [1, 2, 3, 4] = .ok m ∧ jsKeys m = [1, 2, 3, 4] :=
  bulk_order_preserved (fun l => l) (fun c => .ok (c.map (fun _ => [7])))
    2 [1, 0] [1, 2, 3, 4] (fun c => c.map (fun _ => [7]))
    (by decide) (by decide)
    (by
      intro j hj
      have h2 : (chunkCore 1 ([1, 2, 3, 4] : List Nat)).length = 2 := rfl
      rw [h2] at hj
      interval_cases j <;> decide)
    (fun c hc => rfl)
    (fun c hc => by simp)

/-- Claim C6: For a batched bulk getter call whose completion order
settles every chunk: if any chunk's single call fails, the whole
operation rejects with one of the chunk failures; and whenever it
resolves with a map, every requested identifier is present — a partial
merged result is never returned. -/
theorem batched_all_or_nothing {R : Type} (dec : List Nat → R)
    (simOf : List Nat → Except SimError (List (List Nat)))
    (methodMax : Nat) (order : List Nat) (assetIds : List Nat)
    (hbig : assetIds.length > methodMax)
    (hcov : ∀ j, j < (chunkCore (methodMax - 1) assetIds).length → j ∈ order)
    (hlen : ∀ c logs, simOf c = .ok logs → logs.length = c.length) :
    ((∃ c ∈ chunkCore (methodMax - 1) assetIds, ∃ e0,
        viewSingle dec simOf c = .error e0) →
      ∃ e, viewGetter dec simOf methodMax order assetIds = .error e ∧
        ∃ c ∈ chunkCore (methodMax - 1) assetIds, viewSingle dec simOf c = .error e) ∧
    (∀ m, viewGetter dec simOf methodMax order assetIds = .ok m →
      ∀ x ∈ assetIds, x ∈ jsKeys m) := by
  have hbatched : ∀ r, viewGetter dec simOf methodMax order assetIds = r ↔
      (pMapResult (viewSingle dec simOf) (chunkCore (methodMax - 1) assetIds)
        order).map mergeMapsArr = r := by
    intro r
    unfold viewGetter
    rw [if_pos hbig]
    exact Iff.rfl
  constructor
  · intro hfail
    obtain ⟨e, herr, hw⟩ := pMapResult_error (viewSingle dec simOf)
      (chunkCore (methodMax - 1) assetIds) order hcov hfail
    refine ⟨e, (hbatched _).2 ?_, hw⟩
    rw [herr]
    rfl
  · intro m hm x hx
    by_cases hfail : ∃ c ∈ chunkCore (methodMax - 1) assetIds, ∃ e0,
        viewSingle dec simOf c = .error e0
    · obtain ⟨e, herr, -⟩ := pMapResult_error (viewSingle dec simOf)
        (chunkCore (methodMax - 1) assetIds) order hcov hfail
      have : viewGetter dec simOf methodMax order assetIds = .error e := by
        refine (hbatched _).2 ?_
        rw [herr]
        rfl
      rw [hm] at this
      cases this
    · have hok : ∀ c ∈ chunkCore (methodMax - 1) assetIds,
          viewSingle dec simOf c =
            .ok (((viewSingle dec simOf c).toOption).getD []) := by
        intro c hc
        cases hv : viewSingle dec simOf c with
        | error e0 => exact absurd ⟨c, hc, e0, hv⟩ hfail
        | ok mv => rfl
      have hpm := pMapResult_ok (viewSingle dec simOf)
        (fun c => ((viewSingle dec simOf c).toOption).getD [])
        (chunkCore (methodMax - 1) assetIds) hok order hcov
      have hres : viewGetter dec simOf methodMax order assetIds =
          .ok (mergeMapsArr ((chunkCore (methodMax - 1) assetIds).map
            (fun c => ((viewSingle dec simOf c).toOption).getD []))) := by
        refine (hbatched _).2 ?_
        rw [hpm]
        rfl
      rw [hm] at hres
      have hmeq : m = mergeMapsArr ((chunkCore (methodMax - 1) assetIds).map
          (fun c => ((viewSingle dec simOf c).toOption).getD [])) := by
        injection hres
      subst hmeq
      rw [mem_keys_mergeMapsArr]
      have hxc : ∃ c ∈ chunkCore (methodMax - 1) assetIds, x ∈ c := by
        rw [← List.mem_flatten]
        rw [chunkCore_flatten]
        exact hx
      obtain ⟨c, hc, hxin⟩ := hxc
      obtain ⟨logs, hsimc, hform⟩ := viewSingle_ok_inv dec simOf c _ (hok c hc)
      refine ⟨((viewSingle dec simOf c).toOption).getD [], List.mem_map_of_mem _ hc, ?_⟩
      rw [hform, mem_keys_viewAssemble dec c logs (hlen c logs hsimc)]
      exact hxin

/-- Witness for `batched_all_or_nothing`: a two-chunk batch whose second
chunk's simulate call fails rejects the whole operation with that
failure. -/
theorem batched_all_or_nothing_witness :
    ∃ e, viewGetter (fun _ => ())
        (fun c => if c = [9] then .error { message := "boom" }
          else .ok (c.map (fun _ => [])))
        1 [0, 1] [8, 9] = .error e ∧
      ∃ c ∈ chunkCore 0 [8, 9],
        viewSingle (fun _ => ())
          (fun c => if c = [9] then .error { message := "boom" }
            else .ok (c.map (fun _ => [])))
          c = .error e :=
  (batched_all_or_nothing (fun _ => ())
    (fun c => if c = [9] then .error { message := "boom" }
      else .ok (c.map (fun _ => [])))
    1 [0, 1] [8, 9]
    (by decide)
    (by
      intro j hj
      have h2 : (chunkCore 0 ([8, 9] : List Nat)).length = 2 := rfl
      rw [h2] at hj
      interval_cases j <;> decide)
    (by
      intro c logs h
      simp only [] at h
      split at h
      · cases h
      · injection h with h'
        rw [← h']
        simp)).1
    ⟨[9], by decide, { message := "boom" }, by rfl⟩

/-- The shared dispatch meets the boundary behaviour for any positive
capacity. -/
theorem bulkDispatch_boundary (maxN : Nat) (hpos : 0 < maxN) :
    BoundaryOK maxN (bulkDispatch maxN) := by
  intro assetIds
  constructor
  · intro hlen
    unfold bulkDispatch
    rw [if_neg (by omega)]
  · intro hlen
    have hchunks : chunkCore (maxN - 1) assetIds =
        [assetIds.take maxN, assetIds.drop maxN] := by
      cases assetIds with
      | nil => simp at hlen
      | cons a rest =>
          rw [chunkCore_cons]
          have h1 : maxN - 1 + 1 = maxN := by omega
          have htake : a :: rest.take (maxN - 1) = (a :: rest).take maxN := by
            conv_rhs => rw [← h1]
            rfl
          have hdrop : rest.drop (maxN - 1) = (a :: rest).drop maxN := by
            conv_rhs => rw [← h1]
            rfl
          rw [htake, hdrop]
          have hlen1 : ((a :: rest).drop maxN).length = 1 := by
            rw [List.length_drop]
            simp only [List.length_cons] at hlen ⊢
            omega
          obtain ⟨b, hb⟩ : ∃ b, (a :: rest).drop maxN = [b] := by
            cases hdd : (a :: rest).drop maxN with
            | nil => rw [hdd] at hlen1; cases hlen1
            | cons b t =>
                rw [hdd] at hlen1
                simp only [List.length_cons] at hlen1
                have ht : t = [] := List.eq_nil_of_length_eq_zero (by omega)
                exact ⟨b, by rw [ht]⟩
          rw [hb, chunkCore_singleton]
    unfold bulkDispatch
    rw [if_pos (by omega), hchunks]
    refine ⟨rfl, ?_, ?_⟩
    · rw [List.length_take]; omega
    · rw [List.length_drop]; omega

/-- Claim C3: The eight bulk asset-view getters have the capacity
ceilings 128/64/128/64/128/64/64/42 respectively, and each satisfies
the boundary behaviour: exactly the ceiling is a single unbatched
call, one more splits into exactly two chunks of sizes ceiling and
one. -/
theorem view_capacity_boundaries :
    (getAssetsMicro_METHOD_MAX = 128 ∧ getAssetsMicroLabels_METHOD_MAX = 64 ∧
      getAssetsTiny_METHOD_MAX = 128 ∧ getAssetsTinyLabels_METHOD_MAX = 64 ∧
      getAssetsText_METHOD_MAX = 128 ∧ getAssetsTextLabels_METHOD_MAX = 64 ∧
      getAssetsSmall_METHOD_MAX = 64 ∧ getAssetsFull_METHOD_MAX = 42) ∧
    BoundaryOK getAssetsMicro_METHOD_MAX getAssetsMicroPath ∧
    BoundaryOK getAssetsMicroLabels_METHOD_MAX getAssetsMicroLabelsPath ∧
    BoundaryOK getAssetsTiny_METHOD_MAX getAssetsTinyPath ∧
    BoundaryOK getAssetsTinyLabels_METHOD_MAX getAssetsTinyLabelsPath ∧
    BoundaryOK getAssetsText_METHOD_MAX getAssetsTextPath ∧
    BoundaryOK getAssetsTextLabels_METHOD_MAX getAssetsTextLabelsPath ∧
    BoundaryOK getAssetsSmall_METHOD_MAX getAssetsSmallPath ∧
    BoundaryOK getAssetsFull_METHOD_MAX getAssetsFullPath := by
  refine ⟨⟨rfl, rfl, rfl, rfl, rfl, rfl, rfl, rfl⟩,
    ?_, ?_, ?_, ?_, ?_, ?_, ?_, ?_⟩ <;>
    exact bulkDispatch_boundary _ (by decide)

/-- Witness for `view_capacity_boundaries` at the micro (128) and full
(42) boundaries. -/
theorem view_capacity_boundaries_witness :
    getAssetsMicroPath (List.range 128) = .unbatched (List.range 128) ∧
    getAssetsFullPath (List.range 43) =
      .batched [(List.range 43).take 42, (List.range 43).drop 42] ∧
    ((List.range 43).take 42).length = 42 ∧ ((List.range 43).drop 42).length = 1 := by
  refine ⟨(view_capacity_boundaries.2.1 (List.range 128)).1 (by simp [getAssetsMicro_METHOD_MAX]), ?_⟩
  have h := (view_capacity_boundaries.2.2.2.2.2.2.2.2 (List.range 43)).2 (by simp [getAssetsFull_METHOD_MAX])
  exact ⟨h.1, h.2.1, h.2.2⟩

/-! ### Error-token extraction -/

/-- A token found by the log scan starts with `ERR` and is the last
log of one of the eval-states. -/
theorem findLogErr_spec :
    ∀ (states : List (List String)) (tok : String),
      findLogErr states = some tok →
      strStartsWith tok "ERR" = true ∧ ∃ logs ∈ states, logs.getLast? = some tok := by
  intro states
  induction states with
  | nil => intro tok h; cases h
  | cons logs t ih =>
      intro tok h
      rw [findLogErr, List.findSome?_cons] at h
      cases hl : logs.getLast? with
      | none =>
          rw [hl] at h
          obtain ⟨hs, logs', hm, hlast⟩ := ih tok h
          exact ⟨hs, logs', List.mem_cons_of_mem _ hm, hlast⟩
      | some lastLog =>
          rw [hl] at h
          by_cases hsw : strStartsWith lastLog "ERR"
          · simp only [hsw, if_true] at h
            have : lastLog = tok := by injection h
            subst this
            exact ⟨hsw, logs, List.mem_cons_self _ _, hl⟩
          · simp only [hsw, if_false, Bool.false_eq_true] at h
            obtain ⟨hs, logs', hm, hlast⟩ := ih tok h
            exact ⟨hs, logs', List.mem_cons_of_mem _ hm, hlast⟩

/-- A token captured by the message regex has the shape
`ERR:<one or more non-quote characters>`. -/
theorem tryErrToken_spec (cs : List Char) (tok : String)
    (h : tryErrToken cs = some tok) :
    ∃ content, content ≠ [] ∧ (∀ ch ∈ content, ch ≠ '"') ∧
      tok = String.mk ('E' :: 'R' :: 'R' :: ':' :: content) := by
  unfold tryErrToken at h
  split at h
  · next rest =>
      simp only [ne_eq] at h
      split at h
      · next hcond =>
          refine ⟨rest.takeWhile (fun c => decide (c ≠ '"')), hcond.1, ?_, ?_⟩
          · intro ch hch
            have := List.mem_takeWhile_imp hch
            simpa using this
          · have := h
            injection this with h'
            exact h'.symm
      · cases h
  · cases h

/-- As `tryErrToken_spec`, through the leftmost-match scan. -/
theorem findErrTokenAux_spec :
    ∀ (cs : List Char) (tok : String), findErrTokenAux cs = some tok →
      ∃ content, content ≠ [] ∧ (∀ ch ∈ content, ch ≠ '"') ∧
        tok = String.mk ('E' :: 'R' :: 'R' :: ':' :: content) := by
  intro cs
  induction cs with
  | nil => intro tok h; cases h
  | cons c rest ih =>
      intro tok h
      rw [findErrTokenAux] at h
      by_cases hc : c = '"'
      · rw [if_pos hc] at h
        cases ht : tryErrToken rest with
        | none => rw [ht] at h; exact ih tok h
        | some tok' =>
            rw [ht] at h
            have : tok' = tok := by injection h
            subst this
            exact tryErrToken_spec rest tok' ht
      · rw [if_neg hc] at h
        exact ih tok h

/-- Claim C5 counterexample: The claim fails on the code: (i) for the
`util.ts` `wrapErrors` (the variant every SDK call path uses), a
failure whose message text embeds a recognized `ERR:` token but which
carries no eval-state logs is rethrown with its original message — it
is not normalized to the token; (ii) when that variant does extract a
token from the logs, the surfaced error carries no trace of the
original diagnostic; (iii) symmetrically, the `part_007` variant
ignores tokens that appear only in the logs. -/
theorem wrapErrors_c5_counterexample :
    findErrToken "logic eval error: assert failed. Details: \"ERR:NOEXIST\""
      = some "ERR:NOEXIST" ∧
    wrapErrorsUtil (T := Unit)
      (.error { message := "logic eval error: assert failed. Details: \"ERR:NOEXIST\"" })
      = .error { message := "logic eval error: assert failed. Details: \"ERR:NOEXIST\"" } ∧
    "logic eval error: assert failed. Details: \"ERR:NOEXIST\"" ≠ "ERR:NOEXIST" ∧
    wrapErrorsUtil (T := Unit)
      (.error { message := "boom", evalStates := some [["ERR:X"]] })
      = .error { message := "ERR:X", originalMessage := none, evalStates := none } ∧
    wrapErrorsV1 (T := Unit)
      (.error { message := "boom", evalStates := some [["ERR:X"]] })
      = .error { message := "boom", evalStates := some [["ERR:X"]] } := by
  exact ⟨by decide, rfl, by decide, rfl, rfl⟩

/-- Claim C5 as amended: Each `wrapErrors` variant inspects a single
source. The `util.ts` variant reads only the eval-state logs: when the
last log of some eval-state starts with `ERR`, it throws a fresh error
whose message is exactly that log text and which does not retain the
original diagnostic; otherwise (including when the token sits only in
the message text) the original failure is rethrown unchanged. The
`part_007` variant reads only the message text: when a double-quoted
`ERR:`-token occurs, the surfaced error keeps the original object but
its message becomes exactly the token and the original text is kept in
`originalMessage`; otherwise (including when the token sits only in
the logs) the failure is rethrown unchanged. Successes always pass
through untouched. -/
theorem wrapErrors_amended {T : Type} :
    (∀ v : T, wrapErrorsUtil (.ok v) = .ok v ∧ wrapErrorsV1 (.ok v) = .ok v) ∧
    (∀ (msg : String) (om : Option String) (states : List (List String)) (tok : String),
      findLogErr states = some tok →
        wrapErrorsUtil (T := T) (.error ⟨msg, om, some states⟩)
          = .error { message := tok } ∧
        strStartsWith tok "ERR" = true ∧ ∃ logs ∈ states, logs.getLast? = some tok) ∧
    (∀ (msg : String) (om : Option String) (states : List (List String)),
      findLogErr states = none →
        wrapErrorsUtil (T := T) (.error ⟨msg, om, some states⟩)
          = .error ⟨msg, om, some states⟩) ∧
    (∀ (msg : String) (om : Option String),
      wrapErrorsUtil (T := T) (.error ⟨msg, om, none⟩) = .error ⟨msg, om, none⟩) ∧
    (∀ (e : SimError) (tok : String),
      findErrToken e.message = some tok →
        wrapErrorsV1 (T := T) (.error e)
          = .error { e with message := tok, originalMessage := some e.message } ∧
        ∃ content, content ≠ [] ∧ (∀ ch ∈ content, ch ≠ '"') ∧
          tok = String.mk ('E' :: 'R' :: 'R' :: ':' :: content)) ∧
    (∀ e : SimError, findErrToken e.message = none →
      wrapErrorsV1 (T := T) (.error e) = .error e) := by
  refine ⟨fun v => ⟨rfl, rfl⟩, ?_, ?_, fun msg om => rfl, ?_, ?_⟩
  · intro msg om states tok h
    refine ⟨by simp [wrapErrorsUtil, h], (findLogErr_spec states tok h).1,
      (findLogErr_spec states tok h).2⟩
  · intro msg om states h
    simp [wrapErrorsUtil, h]
  · intro e tok h
    refine ⟨by simp [wrapErrorsV1, h], findErrTokenAux_spec e.message.data tok h⟩
  · intro e h
    simp [wrapErrorsV1, h]

/-- Witness for `wrapErrors_amended`: a log-borne token `ERR:X`
normalized by the `util.ts` variant, and a message-borne token `ERR:Y`
normalized by the `part_007` variant. -/
theorem wrapErrors_amended_witness :
    (wrapErrorsUtil (T := Unit) (.error ⟨"boom", none, some [["ERR:X"]]⟩)
        = .error { message := "ERR:X" } ∧
      strStartsWith "ERR:X" "ERR" = true ∧
      ∃ logs ∈ [["ERR:X"]], logs.getLast? = some "ERR:X") ∧
    (wrapErrorsV1 (T := Unit) (.error { message := "a \"ERR:Y\" b" })
        = .error { message := "ERR:Y", originalMessage := some "a \"ERR:Y\" b" } ∧
      ∃ content, content ≠ [] ∧ (∀ ch ∈ content, ch ≠ '"') ∧
        "ERR:Y" = String.mk ('E' :: 'R' :: 'R' :: ':' :: content)) :=
  ⟨(wrapErrors_amended (T := Unit)).2.1 "boom" none [["ERR:X"]] "ERR:X" (by decide),
    (wrapErrors_amended (T := Unit)).2.2.2.2.1 { message := "a \"ERR:Y\" b" } "ERR:Y"
      (by decide)⟩

/-! ### Label descriptor lookup -/

/-- Claim C10: `getLabelDescriptor` resolves to `null` exactly when the
wrapped simulated call fails with normalized message exactly
`ERR:NOEXIST`; any other failure is rethrown unchanged; and on success
it resolves to the descriptor carrying the requested label id. -/
theorem getLabelDescriptor_spec {V : Type} (remote : Except SimError V)
    (labelId : String) :
    (getLabelDescriptor remote labelId = .ok none ↔
      ∃ e, wrapErrorsUtil remote = .error e ∧ e.message = "ERR:NOEXIST") ∧
    (∀ e, wrapErrorsUtil remote = .error e → e.message ≠ "ERR:NOEXIST" →
      getLabelDescriptor remote labelId = .error e) ∧
    (∀ v, remote = .ok v →
      getLabelDescriptor remote labelId =
        .ok (some { id := labelId, value := v })) := by
  refine ⟨⟨?_, ?_⟩, ?_, ?_⟩
  · intro h
    unfold getLabelDescriptor at h
    cases hw : wrapErrorsUtil remote with
    | ok v =>
        rw [hw] at h
        simp at h
    | error e =>
        rw [hw] at h
        have h' : (if e.message = "ERR:NOEXIST"
            then (Except.ok none : Except SimError (Option (LabelDescriptor V)))
            else .error e) = .ok none := h
        by_cases hm : e.message = "ERR:NOEXIST"
        · exact ⟨e, rfl, hm⟩
        · rw [if_neg hm] at h'
          cases h'
  · rintro ⟨e, hw, hm⟩
    unfold getLabelDescriptor
    rw [hw]
    show (if e.message = "ERR:NOEXIST"
        then (Except.ok none : Except SimError (Option (LabelDescriptor V)))
        else .error e) = .ok none
    rw [if_pos hm]
  · intro e hw hm
    unfold getLabelDescriptor
    rw [hw]
    show (if e.message = "ERR:NOEXIST"
        then (Except.ok none : Except SimError (Option (LabelDescriptor V)))
        else .error e) = .error e
    rw [if_neg hm]
  · intro v hr
    subst hr
    rfl

/-- Witness for `getLabelDescriptor_spec`: a simulate failure whose
log token normalizes to `ERR:NOEXIST` yields `null`; a success yields
the descriptor with the requested id. -/
theorem getLabelDescriptor_spec_witness :
    getLabelDescriptor (V := Nat)
        (.error ⟨"boom", none, some [["ERR:NOEXIST"]]⟩) "wo" = .ok none ∧
    getLabelDescriptor (V := Nat) (.ok 5) "wo" =
      .ok (some { id := "wo", value := 5 }) :=
  ⟨(getLabelDescriptor_spec (V := Nat)
      (.error ⟨"boom", none, some [["ERR:NOEXIST"]]⟩) "wo").1.mpr
      ⟨{ message := "ERR:NOEXIST" }, rfl, rfl⟩,
    (getLabelDescriptor_spec (V := Nat) (.ok 5) "wo").2.2 5 rfl⟩

/-! ### Write precondition -/

/-- Claim C8: Every write operation invoked on a client constructed
without a write account fails immediately with the NotConfigured error
and performs zero transport calls. -/
theorem readonly_client_rejects_writes {ρ : Type}
    (send : Except SimError ρ) (labelId name url operator : String)
    (nameO urlO : Option String) (assetId : Nat) (assetIds : List Nat) :
    addLabel (mkAbelSDK none) send labelId name url =
      ⟨.error { message := "A transaction operation was issued on a read-only client" }, 0⟩ ∧
    changeLabel (mkAbelSDK none) send labelId nameO urlO =
      ⟨.error { message := "A transaction operation was issued on a read-only client" }, 0⟩ ∧
    removeLabel (mkAbelSDK none) send labelId =
      ⟨.error { message := "A transaction operation was issued on a read-only client" }, 0⟩ ∧
    addOperatorToLabel (mkAbelSDK none) send operator labelId =
      ⟨.error { message := "A transaction operation was issued on a read-only client" }, 0⟩ ∧
    removeOperatorFromLabel (mkAbelSDK none) send operator labelId =
      ⟨.error { message := "A transaction operation was issued on a read-only client" }, 0⟩ ∧
    addLabelToAsset (mkAbelSDK none) send assetId labelId =
      ⟨.error { message := "A transaction operation was issued on a read-only client" }, 0⟩ ∧
    addLabelToAssets (mkAbelSDK none) send assetIds labelId =
      ⟨.error { message := "A transaction operation was issued on a read-only client" }, 0⟩ ∧
    removeLabelFromAsset (mkAbelSDK none) send assetId labelId =
      ⟨.error { message := "A transaction operation was issued on a read-only client" }, 0⟩ :=
  ⟨rfl, rfl, rfl, rfl, rfl, rfl, rfl, rfl⟩

/-! ### `addLabelToAssets` internal chunking -/

/-- Indexed map over positions ≥ 1 never sees index 0. -/
theorem enumFrom_succ_map_head {α : Type} (f : List α → List α) :
    ∀ (l : List (List α)) (n : Nat),
      (l.enumFrom (n + 1)).map (fun p => if p.1 = 0 then f p.2 else p.2) = l := by
  intro l
  induction l with
  | nil => intro n; rfl
  | cons a t ih =>
      intro n
      show ((n + 1, a) :: t.enumFrom (n + 2)).map
        (fun p => if p.1 = 0 then f p.2 else p.2) = a :: t
      rw [List.map_cons]
      show (if n + 1 = 0 then f a else a) :: _ = _
      rw [if_neg (Nat.succ_ne_zero n)]
      exact congrArg (List.cons a) (ih (n + 1))

/-- The per-call `assets` arguments: the first call carries the first
six ids, the rest are eight-sized slices of the remainder. -/
theorem addLabelToAssetsCallArgs_eq (assetIds : List Nat) :
    addLabelToAssetsCallArgs assetIds
      = assetIds.take 6 :: chunkCore 7 (assetIds.drop 6) := by
  unfold addLabelToAssetsCallArgs
  rw [chunkCore_cons]
  show (((0 : Nat) :: (0 :: assetIds).take 7) :: chunkCore 7 ((0 :: assetIds).drop 7)).enum.map
    (fun p => if p.1 = 0 then p.2.drop 2 else p.2) = _
  rw [List.enum_cons]
  rw [List.map_cons]
  show (if (0 : Nat) = 0 then ((0 : Nat) :: (0 :: assetIds).take 7).drop 2
      else (0 :: (0 :: assetIds).take 7)) :: _ = _
  rw [if_pos rfl]
  rw [enumFrom_succ_map_head]
  show ((0 :: assetIds).take 7).drop 1 :: chunkCore 7 ((0 :: assetIds).drop 7) = _
  rw [List.take_succ_cons, List.drop_succ_cons]
  rfl

/-- Claim C9: `addLabelToAssets` with at most `6 + 8 * 15 = 126` ids
builds one atomic group whose per-call `assets` arguments concatenate
in order to the input, the first call carrying at most 6 ids and every
later call at most 8; past 126 ids it chunks the input into 126-sized
pieces, one independent group per chunk, each chunk fitting the
single-group budget. -/
theorem addLabelToAssets_chunking (assetIds : List Nat) :
    addLabelToAssets_METHOD_MAX = 126 ∧
    (addLabelToAssetsCallArgs assetIds).flatten = assetIds ∧
    (∀ i call, (addLabelToAssetsCallArgs assetIds)[i]? = some call →
      call.length ≤ if i = 0 then 6 else 8) ∧
    (assetIds.length ≤ addLabelToAssets_METHOD_MAX →
      addLabelToAssetsPlan assetIds = .group (addLabelToAssetsCallArgs assetIds)) ∧
    (assetIds.length > addLabelToAssets_METHOD_MAX →
      addLabelToAssetsPlan assetIds =
        .batchedGroups ((chunkCore (addLabelToAssets_METHOD_MAX - 1) assetIds).map
          addLabelToAssetsCallArgs) ∧
      (chunkCore (addLabelToAssets_METHOD_MAX - 1) assetIds).flatten = assetIds ∧
      ∀ c ∈ chunkCore (addLabelToAssets_METHOD_MAX - 1) assetIds,
        c.length ≤ addLabelToAssets_METHOD_MAX ∧
        addLabelToAssetsPlan c = .group (addLabelToAssetsCallArgs c)) := by
  refine ⟨rfl, ?_, ?_, ?_, ?_⟩
  · rw [addLabelToAssetsCallArgs_eq, List.flatten_cons, chunkCore_flatten,
      List.take_append_drop]
  · intro i call h
    rw [addLabelToAssetsCallArgs_eq] at h
    cases i with
    | zero =>
        have : assetIds.take 6 = call := by
          rw [List.getElem?_cons_zero] at h
          injection h
        rw [if_pos rfl, ← this, List.length_take]
        omega
    | succ n =>
        rw [if_neg (Nat.succ_ne_zero n)]
        have hmem : call ∈ chunkCore 7 (assetIds.drop 6) := by
          rw [List.getElem?_cons_succ] at h
          exact List.getElem?_mem h
        exact chunkCore_length_le 7 _ call hmem
  · intro hle
    unfold addLabelToAssetsPlan
    rw [if_neg (by omega)]
  · intro hgt
    unfold addLabelToAssetsPlan
    rw [if_pos hgt]
    refine ⟨rfl, chunkCore_flatten _ _, ?_⟩
    intro c hc
    have hlen : c.length ≤ addLabelToAssets_METHOD_MAX := by
      have := chunkCore_length_le (addLabelToAssets_METHOD_MAX - 1) assetIds c hc
      unfold addLabelToAssets_METHOD_MAX at this ⊢
      omega
    refine ⟨hlen, ?_⟩
    rw [if_neg (by omega)]

/-- Witness for `addLabelToAssets_chunking` at 7 ids (single group,
calls `[[0..5],[6]]`) and 127 ids (fallback to independent groups). -/
theorem addLabelToAssets_chunking_witness :
    (addLabelToAssetsCallArgs (List.range 7)).flatten = List.range 7 ∧
    addLabelToAssetsPlan (List.range 7) =
      .group (addLabelToAssetsCallArgs (List.range 7)) ∧
    addLabelToAssetsPlan (List.range 127) =
      .batchedGroups ((chunkCore (addLabelToAssets_METHOD_MAX - 1) (List.range 127)).map
        addLabelToAssetsCallArgs) ∧
    addLabelToAssetsCallArgs (List.range 7) = [[0, 1, 2, 3, 4, 5], [6]] :=
  ⟨(addLabelToAssets_chunking (List.range 7)).2.1,
    (addLabelToAssets_chunking (List.range 7)).2.2.2.1
      (by rw [List.length_range]; decide),
    ((addLabelToAssets_chunking (List.range 127)).2.2.2.2
      (by rw [List.length_range]; decide)).1,
    by rfl⟩
